import Mathlib

/-!
# Verification of the ue14500-toolkit core

Shallow embedding of the ue14500 toolkit: the 12-bit word data model
(`src/data.rs`), the assembly-text parser (`src/formats/assembly/parser.rs`)
and the binary codec (`src/formats/binary.rs`), together with proofs of the
specified properties.

Machine integers (`u32`) are modelled as `Nat`; wherever Rust wraps at
`2 ^ 32` the reduction is written explicitly.
-/

namespace UE14500

/-! ## Word model (src/data.rs) -/

/-- The 16 opcode variants (`InstKind` in data.rs). -/
inductive InstKind
  | nop0 | ld | add | sub | one | nand | or | xor
  | sto | stoc | ien | oen | ioc | rtn | skz | nopf
deriving DecidableEq, Repr, Fintype

/-- One row of `INST_TABLE`: 4-bit code, canonical lowercase mnemonic, variant. -/
structure InstRow where
  val : Nat
  name : String
  kind : InstKind
deriving DecidableEq, Repr

/-- `INST_TABLE` from data.rs: code / name / variant for all 16 opcodes. -/
def INST_TABLE : List InstRow := [
  ⟨0b0000, "nop0", .nop0⟩,
  ⟨0b0001, "ld", .ld⟩,
  ⟨0b0010, "add", .add⟩,
  ⟨0b0011, "sub", .sub⟩,
  ⟨0b0100, "one", .one⟩,
  ⟨0b0101, "nand", .nand⟩,
  ⟨0b0110, "or", .or⟩,
  ⟨0b0111, "xor", .xor⟩,
  ⟨0b1000, "sto", .sto⟩,
  ⟨0b1001, "stoc", .stoc⟩,
  ⟨0b1010, "ien", .ien⟩,
  ⟨0b1011, "oen", .oen⟩,
  ⟨0b1100, "ioc", .ioc⟩,
  ⟨0b1101, "rtn", .rtn⟩,
  ⟨0b1110, "skz", .skz⟩,
  ⟨0b1111, "nopf", .nopf⟩]

/-- Discriminant of the variant (`self as usize` in Rust). -/
def InstKind.toIdx : InstKind → Nat
  | .nop0 => 0 | .ld => 1 | .add => 2 | .sub => 3
  | .one => 4 | .nand => 5 | .or => 6 | .xor => 7
  | .sto => 8 | .stoc => 9 | .ien => 10 | .oen => 11
  | .ioc => 12 | .rtn => 13 | .skz => 14 | .nopf => 15

/-- `InstKind::val`: `INST_TABLE[self as usize].0`. -/
def InstKind.val (k : InstKind) : Nat :=
  (INST_TABLE.getD k.toIdx ⟨0, "", .nop0⟩).val

/-- `InstKind::name`: `INST_TABLE[self as usize].1`. -/
def InstKind.name (k : InstKind) : String :=
  (INST_TABLE.getD k.toIdx ⟨0, "", .nop0⟩).name

def INST_MASK : Nat := 0b111100000000
def INST_POS : Nat := 8

/-- `impl From<u32> for Inst`, as the table search it performs: mask, shift,
look the 4-bit code up in `INST_TABLE`.  The Rust code ends in `unreachable!()`
when the search fails; that path is the `none` case here. -/
def Inst.fromU32? (word : Nat) : Option InstKind :=
  let val := (word &&& INST_MASK) >>> INST_POS
  (INST_TABLE.find? (fun row => row.val == val)).map (·.kind)

/-- Total version of `Inst.fromU32?` used by the codec; the default is never
reached (`inst_fromU32?_isSome`), mirroring the `unreachable!()` in data.rs. -/
def Inst.fromU32 (word : Nat) : InstKind :=
  (Inst.fromU32? word).getD .nop0

/-- The 7 addressing-mode classifications (`AddrKind` in data.rs). -/
inductive AddrKind
  | general | parallelRead | externalInput | qrr | rr | highInput | lowInput
deriving DecidableEq, Repr, Fintype

/-- One row of `ADDR_TABLE`: an inclusive range, its display name, its kind. -/
structure AddrRow where
  lo : Nat
  hi : Nat
  name : String
  kind : AddrKind
deriving DecidableEq, Repr

/-- `ADDR_TABLE` from data.rs: inclusive 6-bit sub-ranges and their
classifications. -/
def ADDR_TABLE : List AddrRow := [
  ⟨0b000000, 0b100111, "general", .general⟩,
  ⟨0b101000, 0b101111, "parallel read", .parallelRead⟩,
  ⟨0b110000, 0b110111, "external input", .externalInput⟩,
  ⟨0b111000, 0b111000, "qrr", .qrr⟩,
  ⟨0b111001, 0b111001, "rr", .rr⟩,
  ⟨0b111010, 0b111011, "high input", .highInput⟩,
  ⟨0b111100, 0b111111, "low input / high z", .lowInput⟩]

def ADDR_MASK : Nat := 0b000011111100
def ADDR_POS : Nat := 2

/-- The range lookup inside `impl From<u32> for Addr`: find the row of
`ADDR_TABLE` whose range contains the 6-bit value, defaulting to
`AddrKind::General` exactly as the `if let Some .. else` in data.rs does. -/
def addrKindOf (bits : Nat) : AddrKind :=
  ((ADDR_TABLE.find? (fun row => row.lo ≤ bits && bits ≤ row.hi)).map
    (·.kind)).getD .general

/-- `Addr` from data.rs: classification paired with the 6-bit value. -/
structure Addr where
  kind : AddrKind
  val : Nat
deriving DecidableEq, Repr

/-- `impl From<u32> for Addr`: mask, shift, classify. -/
def Addr.fromU32 (word : Nat) : Addr :=
  let addrBits := (word &&& ADDR_MASK) >>> ADDR_POS
  ⟨addrKindOf addrBits, addrBits⟩

/-- The 4 I/O control variants (`CtrlKind` in data.rs). -/
inductive CtrlKind
  | null | copyShift | undefined | stopTape
deriving DecidableEq, Repr, Fintype

/-- One row of `CTRL_TABLE`: 2-bit code, display name, variant. -/
structure CtrlRow where
  val : Nat
  name : String
  kind : CtrlKind
deriving DecidableEq, Repr

/-- `CTRL_TABLE` from data.rs. -/
def CTRL_TABLE : List CtrlRow := [
  ⟨0b00, "null", .null⟩,
  ⟨0b01, "copy and shift out", .copyShift⟩,
  ⟨0b10, "undefined", .undefined⟩,
  ⟨0b11, "stop tape", .stopTape⟩]

def CTRL_MASK : Nat := 0b000000000011

/-- Discriminant of the variant (`self as usize` in Rust). -/
def CtrlKind.toIdx : CtrlKind → Nat
  | .null => 0 | .copyShift => 1 | .undefined => 2 | .stopTape => 3

/-- `CtrlKind::val`: `CTRL_TABLE[self as usize].0`. -/
def CtrlKind.val (k : CtrlKind) : Nat :=
  (CTRL_TABLE.getD k.toIdx ⟨0, "", .null⟩).val

/-- `impl From<u32> for Ctrl` as the table search it performs; `none` is the
`unreachable!()` path. -/
def Ctrl.fromU32? (word : Nat) : Option CtrlKind :=
  let val := word &&& CTRL_MASK
  (CTRL_TABLE.find? (fun row => row.val == val)).map (·.kind)

/-- Total version of `Ctrl.fromU32?`; the default is never reached. -/
def Ctrl.fromU32 (word : Nat) : CtrlKind :=
  (Ctrl.fromU32? word).getD .null

/-- `Word` from data.rs: instruction, address, control. -/
structure Word where
  inst : InstKind
  addr : Addr
  ctrl : CtrlKind
deriving DecidableEq, Repr

/-- `impl From<u32> for Word`: decode all three fields, `none` when a field
table search would hit `unreachable!()`. -/
def Word.fromU32? (bin : Nat) : Option Word := do
  let inst ← Inst.fromU32? bin
  let ctrl ← Ctrl.fromU32? bin
  pure ⟨inst, Addr.fromU32 bin, ctrl⟩

/-- Total decoding of a `Word`, as the codec uses it. -/
def Word.fromU32 (bin : Nat) : Word :=
  ⟨Inst.fromU32 bin, Addr.fromU32 bin, Ctrl.fromU32 bin⟩

/-- `impl From<Word> for u32`:
`inst.val() << INST_POS | addr.val() << ADDR_POS | ctrl.val()`. -/
def Word.toU32 (w : Word) : Nat :=
  w.inst.val <<< INST_POS ||| w.addr.val <<< ADDR_POS ||| w.ctrl.val

/-- The representation invariant every `Addr` constructed by data.rs
satisfies: the stored value is 6 bits and the cached classification is the
table classification of that value. -/
def Addr.valid (a : Addr) : Prop :=
  a.val < 64 ∧ a.kind = addrKindOf a.val

/-- A `Word` whose address field satisfies the data.rs invariant. -/
def Word.valid (w : Word) : Prop := w.addr.valid

instance (a : Addr) : Decidable a.valid := by
  unfold Addr.valid; infer_instance

instance (w : Word) : Decidable w.valid := by
  unfold Word.valid; infer_instance

/-! ## Table lookup facts -/

/-- Every 4-bit code is assigned in `INST_TABLE`. -/
theorem inst_find_isSome :
    ∀ v, v < 16 →
      ((INST_TABLE.find? (fun row => row.val == v)).map (·.kind)).isSome := by
  decide

/-- Every 2-bit code is assigned in `CTRL_TABLE`. -/
theorem ctrl_find_isSome :
    ∀ v, v < 4 →
      ((CTRL_TABLE.find? (fun row => row.val == v)).map (·.kind)).isSome := by
  decide

/-- The masked-and-shifted instruction field of any input is below 16. -/
theorem inst_field_lt (b : Nat) : (b &&& INST_MASK) >>> INST_POS < 16 := by
  have h1 : b &&& INST_MASK < 2 ^ 12 :=
    Nat.and_lt_two_pow b (by norm_num [INST_MASK])
  have h2 := Nat.shiftRight_eq_div_pow (b &&& INST_MASK) INST_POS
  rw [h2]
  show (b &&& INST_MASK) / 2 ^ 8 < 16
  omega

/-- `Inst::from` never reaches its `unreachable!()`. -/
theorem inst_fromU32?_isSome (b : Nat) : (Inst.fromU32? b).isSome :=
  inst_find_isSome _ (inst_field_lt b)

/-- `Ctrl::from` never reaches its `unreachable!()`. -/
theorem ctrl_fromU32?_isSome (b : Nat) : (Ctrl.fromU32? b).isSome := by
  have h : b &&& CTRL_MASK < 4 := by
    have h0 := Nat.and_le_right (n := b) (m := CTRL_MASK)
    have h1 : CTRL_MASK = 3 := rfl
    omega
  exact ctrl_find_isSome _ h

/-- Decoding a word only looks at the low 12 bits: each field mask absorbs a
prior `&&& 0xFFF`. -/
theorem word_fromU32?_mask (b : Nat) :
    Word.fromU32? (b &&& 0xFFF) = Word.fromU32? b := by
  have hinst : (b &&& 0xFFF) &&& INST_MASK = b &&& INST_MASK := by
    rw [Nat.and_assoc]; congr 1
  have hctrl : (b &&& 0xFFF) &&& CTRL_MASK = b &&& CTRL_MASK := by
    rw [Nat.and_assoc]; congr 1
  have haddr : (b &&& 0xFFF) &&& ADDR_MASK = b &&& ADDR_MASK := by
    rw [Nat.and_assoc]; congr 1
  unfold Word.fromU32? Inst.fromU32? Ctrl.fromU32? Addr.fromU32
  rw [hinst, hctrl, haddr]

/-- C4. For every `u32` input `b`, decoding `b` into a `Word` succeeds (the
`unreachable!()` branches in the instruction and control lookups are never
executed, because each field is masked with its bitmask before lookup and all
16 instruction codes and 4 control codes are assigned), and the result equals
decoding `b` with all bits above bit 11 cleared:
`Word::from(b) == Word::from(b & 0xFFF)`. -/
theorem claim_C4_decode_total_and_masked (b : Nat) (_hb : b < 2 ^ 32) :
    (Word.fromU32? b).isSome ∧ Word.fromU32? b = Word.fromU32? (b &&& 0xFFF) := by
  constructor
  · unfold Word.fromU32?
    obtain ⟨i, hi⟩ := Option.isSome_iff_exists.mp (inst_fromU32?_isSome b)
    obtain ⟨c, hc⟩ := Option.isSome_iff_exists.mp (ctrl_fromU32?_isSome b)
    rw [hi, hc]
    rfl
  · exact (word_fromU32?_mask b).symm

/-- Witness for C4 at the concrete input `0xABCDE`. -/
theorem claim_C4_witness :
    (Word.fromU32? 0xABCDE).isSome ∧
      Word.fromU32? 0xABCDE = Word.fromU32? (0xABCDE &&& 0xFFF) :=
  claim_C4_decode_total_and_masked 0xABCDE (by norm_num)

/-- C5. Addressing-mode classification is a pure function of the 6-bit address
value (`addrKindOf`, the range lookup of `Addr::from`) with exact inclusive
boundaries: 0–39 general, 40–47 parallel read, 48–55 external input, 56 QRR,
57 RR, 58–59 high input, 60–63 low input / high-z; and decoding an encoded
6-bit value classifies it with exactly that function. -/
theorem claim_C5_addr_classification :
    (∀ v, v ≤ 39 → addrKindOf v = .general) ∧
    (∀ v, v ≤ 47 → 40 ≤ v → addrKindOf v = .parallelRead) ∧
    (∀ v, v ≤ 55 → 48 ≤ v → addrKindOf v = .externalInput) ∧
    addrKindOf 56 = .qrr ∧
    addrKindOf 57 = .rr ∧
    (∀ v, v ≤ 59 → 58 ≤ v → addrKindOf v = .highInput) ∧
    (∀ v, v ≤ 63 → 60 ≤ v → addrKindOf v = .lowInput) ∧
    (∀ v, v ≤ 63 → Addr.fromU32 (v <<< ADDR_POS) = ⟨addrKindOf v, v⟩) := by
  decide

/-- Witness for C5 at the boundary values 39, 40, 55, and 63. -/
theorem claim_C5_witness :
    addrKindOf 39 = .general ∧ addrKindOf 40 = .parallelRead ∧
      addrKindOf 55 = .externalInput ∧ addrKindOf 63 = .lowInput :=
  ⟨claim_C5_addr_classification.1 39 (by norm_num),
   claim_C5_addr_classification.2.1 40 (by norm_num) (by norm_num),
   claim_C5_addr_classification.2.2.1 55 (by norm_num) (by norm_num),
   claim_C5_addr_classification.2.2.2.2.2.2.1 63 (by norm_num) (by norm_num)⟩

/-- C6. Each field's code-to-variant mapping round-trips: decoding the field
from the encoding of any in-range value yields the value back — for every
`v < 16` on the instruction field, every `a < 64` on the address field, every
`c < 4` on the control field — and at variant level decoding a variant's own
code yields that variant. -/
theorem claim_C6_field_bijections :
    (∀ v, v < 16 → (Inst.fromU32 (v <<< INST_POS)).val = v) ∧
    (∀ a, a < 64 → (Addr.fromU32 (a <<< ADDR_POS)).val = a) ∧
    (∀ c, c < 4 → (Ctrl.fromU32 c).val = c) ∧
    (∀ k : InstKind, Inst.fromU32 (k.val <<< INST_POS) = k) ∧
    (∀ k : CtrlKind, Ctrl.fromU32 k.val = k) := by
  decide

/-- Witness for C6 at the top values 15, 63, and 3. -/
theorem claim_C6_witness :
    (Inst.fromU32 (15 <<< INST_POS)).val = 15 ∧
      (Addr.fromU32 (63 <<< ADDR_POS)).val = 63 ∧
      (Ctrl.fromU32 3).val = 3 :=
  ⟨claim_C6_field_bijections.1 15 (by norm_num),
   claim_C6_field_bijections.2.1 63 (by norm_num),
   claim_C6_field_bijections.2.2.1 3 (by norm_num)⟩

/-! ## Nodes

Modelled from the spec: the `Node`/`Nodes` definitions live in data.rs in the
repository, but the copy of data.rs under src/ stops before them — only their
callers (parser.rs, binary.rs, the CLI) are present.  The spec defines `Node`
as a tagged union over `{Word, Comment(text)}`; the callers construct
`Node::Word(inst, addr, ctrl)` with the three fields inline. -/

/-- Modelled from the spec: `Node`, a tagged union over Word and
Comment(text), the per-line element of a parsed program. -/
inductive Node
  | word (inst : InstKind) (addr : Addr) (ctrl : CtrlKind)
  | comment (text : List Char)
deriving DecidableEq, Repr

/-- Wrap a `Word` as a word node. -/
def Node.ofWord (w : Word) : Node := .word w.inst w.addr w.ctrl

/-- `TryInto::<Word>::try_into(node)` as `serialize` uses it: word nodes
convert, comment nodes fail (and are skipped). -/
def Node.toWord? : Node → Option Word
  | .word i a c => some ⟨i, a, c⟩
  | .comment _ => none

/-! ## Binary codec (src/formats/binary.rs; bit I/O semantics of the bitbit
crate: `write_bits(v, n)` emits the low `n` bits of `v` MSB first,
`BitReader::<MSB>::read_bits(12)` reads 12 MSB-first bits and errors out when
fewer remain). -/

/-- The low `w` bits of `n`, MSB first. -/
def natToBits (n : Nat) : Nat → List Bool
  | 0 => []
  | w + 1 => n.testBit w :: natToBits n w

/-- Value of an MSB-first bit string. -/
def bitsToNat (bs : List Bool) : Nat :=
  bs.foldl (fun acc b => 2 * acc + b.toNat) 0

/-- The 12 bits `serialize` writes for one word:
`write_bits(inst.val(), 4)`, `write_bits(addr.val(), 6)`,
`write_bits(ctrl.val(), 2)`. -/
def wordBits (w : Word) : List Bool :=
  natToBits w.inst.val 4 ++ natToBits w.addr.val 6 ++ natToBits w.ctrl.val 2

/-- All bits written by `serialize`'s loop: each word node contributes its 12
bits, comment nodes are skipped (`TryInto<Word>` fails on them). -/
def serializeBits (nodes : List Node) : List Bool :=
  nodes.foldr
    (fun n acc =>
      match n.toWord? with
      | some w => wordBits w ++ acc
      | none => acc)
    []

/-- `BitWriter::pad_to_byte`: append zero bits up to the next byte boundary. -/
def padToByte (bs : List Bool) : List Bool :=
  bs ++ List.replicate ((8 - bs.length % 8) % 8) false

/-- Pack a bit stream into bytes, 8 MSB-first bits at a time (the byte stream
the buffered bit writer hands to the output).  `fuel` bounds the number of
bytes; callers pass at least `bs.length`, which always suffices. -/
def packBytes : Nat → List Bool → List Nat
  | 0, _ => []
  | fuel + 1, bs =>
    if 8 ≤ bs.length then bitsToNat (bs.take 8) :: packBytes fuel (bs.drop 8)
    else []

/-- `serialize` from binary.rs: write 12 bits per word node, skip comments,
pad the final byte with zero bits. -/
def serialize (nodes : List Node) : List Nat :=
  packBytes (padToByte (serializeBits nodes)).length
    (padToByte (serializeBits nodes))

/-- The MSB-first bit stream of a byte stream, as `BitReader::<_, MSB>`
exposes it. -/
def bitsOfBytes (bytes : List Nat) : List Bool :=
  bytes.flatMap (fun b => natToBits b 8)

/-- `deserialize`'s loop: `read_bits(12)` until fewer than 12 bits remain; the
final fragment is discarded without error.  `fuel` bounds the number of words;
callers pass at least `bs.length`, which always suffices. -/
def readWords : Nat → List Bool → List Word
  | 0, _ => []
  | fuel + 1, bs =>
    if 12 ≤ bs.length then
      Word.fromU32 (bitsToNat (bs.take 12)) :: readWords fuel (bs.drop 12)
    else []

/-- `deserialize` from binary.rs (the words of the returned `Nodes`; the Rust
code wraps each decoded word into a word node). -/
def deserialize (bytes : List Nat) : List Word :=
  readWords (bitsOfBytes bytes).length (bitsOfBytes bytes)

/-! ## Bit-string arithmetic -/

theorem natToBits_length (n : Nat) : ∀ w, (natToBits n w).length = w
  | 0 => rfl
  | w + 1 => by simp [natToBits, natToBits_length n w]

theorem foldl_bits (bs : List Bool) :
    ∀ acc : Nat,
      bs.foldl (fun a b => 2 * a + b.toNat) acc =
        acc * 2 ^ bs.length + bitsToNat bs := by
  induction bs with
  | nil => intro acc; simp [bitsToNat]
  | cons b t ih =>
    intro acc
    have hbt : bitsToNat (b :: t) = b.toNat * 2 ^ t.length + bitsToNat t := by
      show t.foldl _ (2 * 0 + b.toNat) = _
      rw [ih (2 * 0 + b.toNat)]
      ring
    show t.foldl _ (2 * acc + b.toNat) = acc * 2 ^ (b :: t).length + bitsToNat (b :: t)
    rw [ih (2 * acc + b.toNat), hbt]
    simp [List.length_cons]
    ring

theorem bitsToNat_cons (b : Bool) (t : List Bool) :
    bitsToNat (b :: t) = b.toNat * 2 ^ t.length + bitsToNat t := by
  show t.foldl _ (2 * 0 + b.toNat) = _
  rw [foldl_bits t (2 * 0 + b.toNat)]
  ring

theorem bitsToNat_lt (bs : List Bool) : bitsToNat bs < 2 ^ bs.length := by
  induction bs with
  | nil => simp [bitsToNat]
  | cons b t ih =>
    rw [bitsToNat_cons]
    have hp : (0 : Nat) < 2 ^ t.length := Nat.pos_pow_of_pos _ (by norm_num)
    have hb : b.toNat ≤ 1 := Bool.toNat_le b
    simp only [List.length_cons, pow_succ]
    nlinarith

theorem bitsToNat_append (xs ys : List Bool) :
    bitsToNat (xs ++ ys) = bitsToNat xs * 2 ^ ys.length + bitsToNat ys := by
  show (xs ++ ys).foldl _ 0 = _
  rw [List.foldl_append, foldl_bits ys]
  rfl

theorem natToBits_congr {n m : Nat} :
    ∀ w, n % 2 ^ w = m % 2 ^ w → natToBits n w = natToBits m w := by
  intro w
  induction w with
  | zero => intro _; rfl
  | succ w ih =>
    intro h
    have hbit : n.testBit w = m.testBit w := by
      have hn : n.testBit w = (n % 2 ^ (w + 1)).testBit w := by
        rw [Nat.testBit_mod_two_pow]
        simp
      have hm : m.testBit w = (m % 2 ^ (w + 1)).testBit w := by
        rw [Nat.testBit_mod_two_pow]
        simp
      rw [hn, hm, h]
    have htail : n % 2 ^ w = m % 2 ^ w := by
      have hd : (2 : Nat) ^ w ∣ 2 ^ (w + 1) := pow_dvd_pow 2 (by omega)
      calc n % 2 ^ w = n % 2 ^ (w + 1) % 2 ^ w := (Nat.mod_mod_of_dvd n hd).symm
        _ = m % 2 ^ (w + 1) % 2 ^ w := by rw [h]
        _ = m % 2 ^ w := Nat.mod_mod_of_dvd m hd
    simp [natToBits, hbit, ih htail]

theorem natToBits_bitsToNat (bs : List Bool) :
    natToBits (bitsToNat bs) bs.length = bs := by
  induction bs with
  | nil => rfl
  | cons b t ih =>
    have hlt := bitsToNat_lt t
    have hval := bitsToNat_cons b t
    show natToBits (bitsToNat (b :: t)) (t.length + 1) = b :: t
    rw [natToBits]
    have hhead : (bitsToNat (b :: t)).testBit t.length = b := by
      rw [Nat.testBit_to_div_mod, hval]
      have hdiv : (b.toNat * 2 ^ t.length + bitsToNat t) / 2 ^ t.length = b.toNat := by
        rw [Nat.mul_comm, Nat.mul_add_div (Nat.pos_pow_of_pos _ (by norm_num)),
          Nat.div_eq_of_lt hlt]
        rfl
      rw [hdiv]
      cases b <;> simp
    have htail : natToBits (bitsToNat (b :: t)) t.length = t := by
      have hmod : bitsToNat (b :: t) % 2 ^ t.length = bitsToNat t % 2 ^ t.length := by
        rw [hval, Nat.mul_comm, Nat.mul_add_mod]
      rw [natToBits_congr t.length hmod, ih]
    rw [hhead, htail]

theorem bitsToNat_natToBits (n : Nat) : ∀ w, bitsToNat (natToBits n w) = n % 2 ^ w := by
  intro w
  induction w with
  | zero => simp [natToBits, bitsToNat, Nat.mod_one]
  | succ w ih =>
    rw [natToBits, bitsToNat_cons, natToBits_length, ih]
    have hbit : (n.testBit w).toNat = n / 2 ^ w % 2 := by
      rw [Nat.testBit_to_div_mod]
      rcases Nat.mod_two_eq_zero_or_one (n / 2 ^ w) with h | h <;> simp [h]
    rw [hbit, pow_succ, Nat.mod_mul]
    ring

/-! ## Word-level decode-of-encode -/

theorem instKind_val_lt (k : InstKind) : k.val < 16 := by
  cases k <;> decide

theorem ctrlKind_val_lt (k : CtrlKind) : k.val < 4 := by
  cases k <;> decide

/-- Decoding the packed 12-bit value of an instruction code, a 6-bit address
and a control code recovers all three fields, the address classified by the
table. -/
theorem word_decode_encode_core :
    ∀ (i : InstKind) (c : CtrlKind), ∀ a, a < 64 →
      Word.fromU32 (i.val * 256 + a * 4 + c.val) = ⟨i, ⟨addrKindOf a, a⟩, c⟩ := by
  decide

theorem wordBits_length (w : Word) : (wordBits w).length = 12 := by
  simp [wordBits, natToBits_length]

/-- The 12-bit group written for a valid word decodes back to that word. -/
theorem fromU32_bitsToNat_wordBits (w : Word) (hw : w.valid) :
    Word.fromU32 (bitsToNat (wordBits w)) = w := by
  obtain ⟨i, ⟨k, a⟩, c⟩ := w
  obtain ⟨ha, hk⟩ := hw
  simp only at ha hk
  subst hk
  have hval : bitsToNat (wordBits ⟨i, ⟨addrKindOf a, a⟩, c⟩) =
      i.val * 256 + a * 4 + c.val := by
    show bitsToNat (natToBits i.val 4 ++ (natToBits a 6 ++ natToBits c.val 2)) = _
    rw [bitsToNat_append, bitsToNat_append, bitsToNat_natToBits,
      bitsToNat_natToBits, bitsToNat_natToBits]
    have h4 : i.val < 2 ^ 4 := lt_of_lt_of_le (instKind_val_lt i) (by norm_num)
    have h6 : a < 2 ^ 6 := lt_of_lt_of_le ha (by norm_num)
    have h2 : c.val < 2 ^ 2 := lt_of_lt_of_le (ctrlKind_val_lt c) (by norm_num)
    rw [Nat.mod_eq_of_lt h4, Nat.mod_eq_of_lt h6, Nat.mod_eq_of_lt h2]
    simp [natToBits_length, List.length_append]
    ring
  rw [hval]
  exact word_decode_encode_core i c a ha

/-! ## Stream-level lemmas -/

theorem serializeBits_cons (w : Word) (t : List Node) :
    serializeBits (Node.ofWord w :: t) = wordBits ⟨w.inst, w.addr, w.ctrl⟩ ++ serializeBits t := rfl

theorem serializeBits_words_length (ws : List Word) :
    (serializeBits (ws.map Node.ofWord)).length = 12 * ws.length := by
  induction ws with
  | nil => rfl
  | cons w t ih =>
    show (wordBits ⟨w.inst, w.addr, w.ctrl⟩ ++ serializeBits (t.map Node.ofWord)).length = _
    rw [List.length_append, wordBits_length, ih]
    simp [List.length_cons]
    ring

theorem bitsOfBytes_length (bytes : List Nat) :
    (bitsOfBytes bytes).length = 8 * bytes.length := by
  induction bytes with
  | nil => rfl
  | cons b t ih =>
    show (natToBits b 8 ++ bitsOfBytes t).length = _
    rw [List.length_append, natToBits_length, ih]
    simp [List.length_cons]
    ring

theorem natToBits_bitsToNat_of_length {bs : List Bool} {w : Nat} (h : bs.length = w) :
    natToBits (bitsToNat bs) w = bs := by
  subst h
  exact natToBits_bitsToNat bs

theorem bitsOfBytes_packBytes :
    ∀ fuel (bs : List Bool), bs.length % 8 = 0 → bs.length ≤ 8 * fuel →
      bitsOfBytes (packBytes fuel bs) = bs := by
  intro fuel
  induction fuel with
  | zero =>
    intro bs _ hle
    have : bs = [] := List.length_eq_zero.mp (by omega)
    subst this
    rfl
  | succ fuel ih =>
    intro bs hmod hle
    rw [packBytes]
    by_cases h8 : 8 ≤ bs.length
    · rw [if_pos h8]
      have htk : (bs.take 8).length = 8 := by
        rw [List.length_take]
        omega
      show natToBits (bitsToNat (bs.take 8)) 8 ++ bitsOfBytes (packBytes fuel (bs.drop 8)) = bs
      rw [natToBits_bitsToNat_of_length htk]
      rw [ih (bs.drop 8) (by rw [List.length_drop]; omega)
        (by rw [List.length_drop]; omega)]
      exact List.take_append_drop 8 bs
    · rw [if_neg h8]
      have : bs = [] := List.length_eq_zero.mp (by omega)
      subst this
      rfl

theorem readWords_words (ws : List Word) (hws : ∀ w ∈ ws, w.valid) :
    ∀ (fuel : Nat) (pad : List Bool), pad.length < 12 → ws.length ≤ fuel →
      readWords fuel (serializeBits (ws.map Node.ofWord) ++ pad) = ws := by
  induction ws with
  | nil =>
    intro fuel pad hpad _
    show readWords fuel pad = []
    cases fuel with
    | zero => rfl
    | succ fuel => rw [readWords, if_neg (by omega)]
  | cons w t ih =>
    intro fuel pad hpad hfuel
    cases fuel with
    | zero => simp at hfuel
    | succ fuel =>
      have hw : w.valid := hws w (List.mem_cons_self w t)
      have hwb : (wordBits ⟨w.inst, w.addr, w.ctrl⟩).length = 12 := wordBits_length _
      have harr :
          serializeBits ((w :: t).map Node.ofWord) ++ pad =
            wordBits ⟨w.inst, w.addr, w.ctrl⟩ ++ (serializeBits (t.map Node.ofWord) ++ pad) := by
        rw [List.map_cons, serializeBits_cons, List.append_assoc]
      rw [harr, readWords]
      rw [if_pos (by rw [List.length_append, hwb]; omega)]
      rw [List.take_left' hwb, List.drop_left' hwb]
      have hwid : (⟨w.inst, w.addr, w.ctrl⟩ : Word) = w := rfl
      rw [fromU32_bitsToNat_wordBits _ (by rw [hwid]; exact hw), hwid]
      rw [ih (fun x hx => hws x (List.mem_cons_of_mem w hx)) fuel pad hpad (by simpa using hfuel)]

/-- C1. For every sequence of words (no comment nodes), decoding the bytes
produced by encoding yields exactly the sequence back — count, order and all
three fields preserved, the zero padding of the final byte discarded. -/
theorem claim_C1_binary_roundtrip (ws : List Word) (hws : ∀ w ∈ ws, w.valid) :
    deserialize (serialize (ws.map Node.ofWord)) = ws := by
  unfold deserialize serialize
  have hpack := bitsOfBytes_packBytes
    (padToByte (serializeBits (ws.map Node.ofWord))).length
    (padToByte (serializeBits (ws.map Node.ofWord)))
    (by unfold padToByte; rw [List.length_append, List.length_replicate]; omega)
    (by omega)
  rw [hpack]
  unfold padToByte
  rw [serializeBits_words_length]
  rw [readWords_words ws hws _ _ (by rw [List.length_replicate]; omega)
    (by rw [List.length_append, List.length_replicate, serializeBits_words_length]; omega)]

/-- Witness for C1 on the spec's three-word example program
(`ONE 0o77 0b0`, `STOC 0o50 0b0`, `NOP0 0o77 0b1`). -/
theorem claim_C1_witness :
    (∀ w ∈ [(⟨.one, ⟨.lowInput, 63⟩, .null⟩ : Word),
            ⟨.stoc, ⟨.parallelRead, 40⟩, .null⟩,
            ⟨.nop0, ⟨.lowInput, 63⟩, .copyShift⟩], w.valid) ∧
    deserialize (serialize ([(⟨.one, ⟨.lowInput, 63⟩, .null⟩ : Word),
        ⟨.stoc, ⟨.parallelRead, 40⟩, .null⟩,
        ⟨.nop0, ⟨.lowInput, 63⟩, .copyShift⟩].map Node.ofWord)) =
      [⟨.one, ⟨.lowInput, 63⟩, .null⟩,
       ⟨.stoc, ⟨.parallelRead, 40⟩, .null⟩,
       ⟨.nop0, ⟨.lowInput, 63⟩, .copyShift⟩] :=
  ⟨by decide, claim_C1_binary_roundtrip _ (by decide)⟩

theorem readWords_length :
    ∀ fuel (bs : List Bool), bs.length ≤ 12 * fuel →
      (readWords fuel bs).length = bs.length / 12 := by
  intro fuel
  induction fuel with
  | zero =>
    intro bs hle
    have h0 : bs.length = 0 := by omega
    rw [readWords]
    simp [h0]
  | succ fuel ih =>
    intro bs hle
    rw [readWords]
    by_cases h12 : 12 ≤ bs.length
    · rw [if_pos h12, List.length_cons, ih (bs.drop 12) (by rw [List.length_drop]; omega)]
      rw [List.length_drop]
      omega
    · rw [if_neg h12]
      show 0 = bs.length / 12
      omega

/-- C8. Binary decoding has no error path: on any byte sequence of length `L`
it returns exactly `⌊8L / 12⌋` words, a final fragment of fewer than 12 bits
being silently discarded. -/
theorem claim_C8_decode_total_word_count (bytes : List Nat) :
    (deserialize bytes).length = 8 * bytes.length / 12 := by
  unfold deserialize
  rw [readWords_length _ _ (by omega), bitsOfBytes_length]

/-! ## Assembly parser (src/formats/assembly/parser.rs)

parser.rs is written against the chonk parser-combinator crate, a dependency
whose code is not under src/.  The combinators used are embedded with their
evident semantics — literal match (`is`), greedy bounded repetition (`take`),
ordered first-match choice (`find_any`/`take_any`), sequencing (`find_all`).
The one piece of programme-level glue whose behaviour those do not fix — the
`trim`/`find_until` wrapper of `nodes()` — is modelled from the spec and
marked as such below. -/

/-- `SyntaxError` from parser.rs. -/
inductive SynError
  | expectedInst (inst : InstKind)
  | expectedAddr
  | expectedCtrl
  | expectedWord
  | expectedComment
  | unexpectedEoi
deriving DecidableEq, Repr

/-- Result of a parser on a char-list input: a value and the unconsumed rest,
or a syntax error. -/
abbrev PRes (α : Type) := Except SynError (α × List Char)

/-- `true` exactly on the error case. -/
def isErr {ε α : Type} : Except ε α → Bool
  | .error _ => true
  | .ok _ => false

/-- chonk `is(literal)`: consume the literal prefix or fail. -/
def isLit : List Char → List Char → Option (List Char)
  | [], cs => some cs
  | _ :: _, [] => none
  | l :: ls, c :: cs => if c = l then isLit ls cs else none

/-- chonk `take(lo..hi, is(pred))`, greedy consumption half: consume up to
`max` characters satisfying `pred` (a Rust range `lo..hi` allows at most
`hi - 1` repetitions). -/
def takeGo (p : Char → Bool) : Nat → List Char → List Char × List Char
  | 0, cs => ([], cs)
  | _ + 1, [] => ([], [])
  | m + 1, c :: cs =>
    if p c then ((c :: (takeGo p m cs).1), (takeGo p m cs).2)
    else ([], c :: cs)

def isBinDigit (c : Char) : Bool := c == '0' || c == '1'

def isOctDigit (c : Char) : Bool := '0' ≤ c && c ≤ '7'

def isHexDigit (c : Char) : Bool :=
  ('0' ≤ c && c ≤ '9') || ('a' ≤ c && c ≤ 'f') || ('A' ≤ c && c ≤ 'F')

/-- Value of one digit character, as `u32::from_str_radix` reads it. -/
def digitVal (c : Char) : Nat :=
  if '0' ≤ c && c ≤ '9' then c.toNat - '0'.toNat
  else if 'a' ≤ c && c ≤ 'f' then c.toNat - 'a'.toNat + 10
  else if 'A' ≤ c && c ≤ 'F' then c.toNat - 'A'.toNat + 10
  else 0

/-- `u32::from_str_radix`: value of a digit string in the given radix. -/
def fromStrRadix (radix : Nat) (s : List Char) : Nat :=
  s.foldl (fun acc c => acc * radix + digitVal c) 0

/-- `bin()` from parser.rs: `"0b"` then `take(1..32)` binary digits. -/
def binP (cs : List Char) : PRes Nat :=
  match isLit ['0', 'b'] cs with
  | none => .error .expectedAddr
  | some cs1 =>
    if 1 ≤ (takeGo isBinDigit 31 cs1).1.length then
      .ok (fromStrRadix 2 (takeGo isBinDigit 31 cs1).1, (takeGo isBinDigit 31 cs1).2)
    else .error .expectedAddr

/-- `oct()` from parser.rs: `"0o"` then `take(1..11)` octal digits. -/
def octP (cs : List Char) : PRes Nat :=
  match isLit ['0', 'o'] cs with
  | none => .error .expectedAddr
  | some cs1 =>
    if 1 ≤ (takeGo isOctDigit 10 cs1).1.length then
      .ok (fromStrRadix 8 (takeGo isOctDigit 10 cs1).1, (takeGo isOctDigit 10 cs1).2)
    else .error .expectedAddr

/-- `hex()` from parser.rs: `"0h"` then `take(1..8)` hex digits. -/
def hexP (cs : List Char) : PRes Nat :=
  match isLit ['0', 'h'] cs with
  | none => .error .expectedAddr
  | some cs1 =>
    if 1 ≤ (takeGo isHexDigit 7 cs1).1.length then
      .ok (fromStrRadix 16 (takeGo isHexDigit 7 cs1).1, (takeGo isHexDigit 7 cs1).2)
    else .error .expectedAddr

/-- `newline()` from parser.rs: end of input, `"\n"`, or `"\r\n"`, in that
order. -/
def newlineP (cs : List Char) : PRes (List Char) :=
  match cs with
  | [] => .ok ([], [])
  | _ =>
    match isLit ['\n'] cs with
    | some rest => .ok (['\n'], rest)
    | none =>
      match isLit ['\r', '\n'] cs with
      | some rest => .ok (['\r', '\n'], rest)
      | none => .error .unexpectedEoi

/-- The `take_until(newline(), is(any))` inside `comment()`: consume
characters until `newline()` would match (end of input included), without
consuming the terminator. -/
def commentText : List Char → List Char × List Char
  | [] => ([], [])
  | c :: cs =>
    if c = '\n' ∨ (c = '\r' ∧ cs.head? = some '\n') then ([], c :: cs)
    else ((c :: (commentText cs).1), (commentText cs).2)

/-- ASCII whitespace, as relevant to this grammar. -/
def isWS (c : Char) : Bool := c == ' ' || c == '\t' || c == '\n' || c == '\r'

/-- Rust `str::trim_end` on the comment text. -/
def trimEnd (cs : List Char) : List Char := (cs.reverse.dropWhile isWS).reverse

/-- `comment()` from parser.rs: `';'`, text to end of line (right-trimmed,
indentation preserved), line terminator. -/
def commentP (cs : List Char) : PRes Node :=
  match isLit [';'] cs with
  | none => .error .expectedComment
  | some cs1 =>
    match newlineP (commentText cs1).2 with
    | .ok (_, cs3) => .ok (.comment (trimEnd (commentText cs1).1), cs3)
    | .error _ => .error .expectedComment

/-- The 16 `inst_item` alternatives of `inst()`, in source order (`StoC`
listed before `Sto`). -/
def INST_ITEMS : List (InstKind × String) := [
  (.nop0, "Nop0"), (.ld, "Ld"), (.add, "Add"), (.sub, "Sub"),
  (.one, "One"), (.nand, "Nand"), (.or, "Or"), (.xor, "Xor"),
  (.stoc, "StoC"), (.sto, "Sto"), (.ien, "Ien"), (.oen, "Oen"),
  (.ioc, "Ioc"), (.rtn, "Rtn"), (.skz, "Skz"), (.nopf, "NopF")]

/-- `inst_item(inst, name)` from parser.rs: the given spelling, then its
all-lowercase spelling, then its all-uppercase spelling. -/
def instItemP (inst : InstKind) (name : String) (cs : List Char) : PRes InstKind :=
  match isLit name.data cs with
  | some rest => .ok (inst, rest)
  | none =>
    match isLit (name.data.map Char.toLower) cs with
    | some rest => .ok (inst, rest)
    | none =>
      match isLit (name.data.map Char.toUpper) cs with
      | some rest => .ok (inst, rest)
      | none => .error (.expectedInst inst)

/-- `find_any` over the `inst_item` alternatives: first success wins. -/
def instAnyP : List (InstKind × String) → List Char → PRes InstKind
  | [], _ => .error .unexpectedEoi
  | [(i, n)], cs => instItemP i n cs
  | (i, n) :: rest, cs =>
    match instItemP i n cs with
    | .ok r => .ok r
    | .error _ => instAnyP rest cs

/-- `inst()` from parser.rs. -/
def instP (cs : List Char) : PRes InstKind := instAnyP INST_ITEMS cs

/-- chonk `space(1..)`: one or more space characters. -/
def spaceP (cs : List Char) : PRes Unit :=
  if 1 ≤ (cs.takeWhile (fun c => c == ' ')).length then
    .ok ((), cs.dropWhile (fun c => c == ' '))
  else .error .expectedWord

/-- `find_any((bin(), oct(), hex()))`: binary, then octal, then hexadecimal,
first match wins. -/
def numP (cs : List Char) : PRes Nat :=
  match binP cs with
  | .ok r => .ok r
  | .error _ =>
    match octP cs with
    | .ok r => .ok r
    | .error _ => hexP cs

def U32_MOD : Nat := 2 ^ 32

/-- `addr()` from parser.rs: numeral, then `Addr::from(value << ADDR_POS)` —
a `u32` shift, wrapping at `2 ^ 32`. -/
def addrP (cs : List Char) : PRes Addr :=
  match numP cs with
  | .ok (v, rest) => .ok (Addr.fromU32 ((v <<< ADDR_POS) % U32_MOD), rest)
  | .error _ => .error .expectedAddr

/-- `ctrl()` from parser.rs: numeral, then `Ctrl::from(value)`. -/
def ctrlP (cs : List Char) : PRes CtrlKind :=
  match numP cs with
  | .ok (v, rest) => .ok (Ctrl.fromU32 v, rest)
  | .error _ => .error .expectedCtrl

/-- `word()` from parser.rs: mnemonic, spaces, address, spaces, control, line
terminator. -/
def wordP (cs : List Char) : PRes Node :=
  match instP cs with
  | .error e => .error e
  | .ok (i, cs1) =>
    match spaceP cs1 with
    | .error e => .error e
    | .ok (_, cs2) =>
      match addrP cs2 with
      | .error e => .error e
      | .ok (a, cs3) =>
        match spaceP cs3 with
        | .error e => .error e
        | .ok (_, cs4) =>
          match ctrlP cs4 with
          | .error e => .error e
          | .ok (c, cs5) =>
            match newlineP cs5 with
            | .error e => .error e
            | .ok (_, cs6) => .ok (.word i a c, cs6)

/-- `find_any((comment(), word()))`, the per-item alternative of `nodes()`. -/
def itemP (cs : List Char) : PRes Node :=
  match commentP cs with
  | .ok r => .ok r
  | .error _ => wordP cs

/-- Horizontal whitespace (line indentation). -/
def isHWS (c : Char) : Bool := c == ' ' || c == '\t'

/-- Modelled from the spec: the loop of `nodes()` in parser.rs —
`trim(find_until(eoi(), trim(find_any((comment(), word())))))` — is glued
together by the chonk `trim`/`find_until` combinators, which are not under
src/.  Following §4.3 of the spec: each item may be preceded by horizontal
indentation, the loop stops at end of input or when only trailing blank lines
remain, and anything else must parse as a comment or a word — so a blank line
between two content lines is a parse failure, never skipped.  `fuel` bounds
the number of items; callers pass `length + 1`, which always suffices because
every item consumes at least one character. -/
def nodesLoop : Nat → List Char → Except SynError (List Node)
  | 0, _ => .error .unexpectedEoi
  | fuel + 1, cs =>
    if (cs.dropWhile isHWS).all isWS then .ok []
    else
      match itemP (cs.dropWhile isHWS) with
      | .ok (n, rest) =>
        match nodesLoop fuel rest with
        | .ok ns => .ok (n :: ns)
        | .error e => .error e
      | .error e => .error e

/-- Modelled from the spec: `nodes()` from parser.rs — leading blank lines
around the whole program are trimmed, then the item loop runs. -/
def nodesP (cs : List Char) : Except SynError (List Node) :=
  nodesLoop ((cs.dropWhile isWS).length + 1) (cs.dropWhile isWS)

/-! ## Mnemonic and numeral claims -/

deriving instance DecidableEq for Except

/-- Character order agrees with code-point order. -/
theorem charToNat_le_iff {a b : Char} : a ≤ b ↔ a.toNat ≤ b.toNat :=
  Char.le_def.trans (UInt32.le_def.trans BitVec.le_def)

/-- C3. Every one of the 16 mnemonics is accepted by the instruction parser in
its source (mixed-case) spelling, its all-lowercase spelling, and its
all-uppercase spelling, each yielding the same variant. -/
theorem claim_C3_mnemonic_case_insensitive :
    ∀ p ∈ INST_ITEMS,
      instP p.2.data = .ok (p.1, []) ∧
      instP (p.2.data.map Char.toLower) = .ok (p.1, []) ∧
      instP (p.2.data.map Char.toUpper) = .ok (p.1, []) := by
  decide

/-- Witness for C3 at the `One` mnemonic: "One", "one", "ONE" all parse to
the `One` variant. -/
theorem claim_C3_witness :
    instP "One".data = .ok (.one, []) ∧
      instP "one".data = .ok (.one, []) ∧
      instP "ONE".data = .ok (.one, []) := by
  have h := claim_C3_mnemonic_case_insensitive (.one, "One") (by decide)
  exact ⟨h.1, h.2.1, h.2.2⟩

/-- C7. The address parser tries binary, then octal, then hexadecimal (the
fixed order of `numP`); "0b111111", "0o77" and "0h3f" in the address position
all parse to address value 63 (classified low input / high-z). -/
theorem claim_C7_numeral_base_dispatch :
    addrP "0b111111".data = .ok (⟨.lowInput, 63⟩, []) ∧
    addrP "0o77".data = .ok (⟨.lowInput, 63⟩, []) ∧
    addrP "0h3f".data = .ok (⟨.lowInput, 63⟩, []) := by
  decide

/-- The stored address value of a parsed numeral of value `n` is `n mod 64`:
the `u32` shift wraps at `2 ^ 32` and `Addr::from` masks with `ADDR_MASK`. -/
theorem addr_fromU32_val_mod (n : Nat) :
    (Addr.fromU32 ((n <<< ADDR_POS) % U32_MOD)).val = n % 64 := by
  have h1 : (Addr.fromU32 ((n <<< ADDR_POS) % U32_MOD)).val
      = (((n <<< 2) % 2 ^ 32) &&& (2 ^ 6 - 1) <<< 2) >>> 2 := rfl
  rw [h1, show (64 : Nat) = 2 ^ 6 from by norm_num]
  apply Nat.eq_of_testBit_eq
  intro i
  simp only [Nat.testBit_shiftRight, Nat.testBit_land, Nat.testBit_mod_two_pow,
    Nat.testBit_shiftLeft, Nat.testBit_two_pow_sub_one]
  have h2 : 2 + i - 2 = i := by omega
  by_cases hi : i < 6
  · have h32 : 2 + i < 32 := by omega
    have hge : 2 + i ≥ 2 := by omega
    simp [hi, h32, hge, h2]
  · simp [hi, h2]

/-- The stored control code of a parsed numeral of value `n` is `n mod 4`:
`Ctrl::from` masks with `CTRL_MASK` before the table lookup. -/
theorem ctrl_fromU32_val_mod (n : Nat) : (Ctrl.fromU32 n).val = n % 4 := by
  have key : ∀ v, v < 4 → (Ctrl.fromU32 v).val = v := by decide
  have hm : n &&& CTRL_MASK = n % 4 := by
    have h := Nat.and_pow_two_sub_one_eq_mod n 2
    norm_num at h
    exact h
  have hm2 : (n % 4) &&& CTRL_MASK = n % 4 := by
    have h := Nat.and_pow_two_sub_one_eq_mod (n % 4) 2
    norm_num at h
    exact h
  have hmain : Ctrl.fromU32 n = Ctrl.fromU32 (n % 4) := by
    simp only [Ctrl.fromU32, Ctrl.fromU32?]
    rw [hm, hm2]
  rw [hmain, key (n % 4) (Nat.mod_lt n (by norm_num))]

/-- C9. The field parsers accept out-of-range numerals without error: an
address numeral of value `n` is stored as `n mod 64` and a control numeral of
value `n` as control code `n mod 4`, the parsed value being masked rather
than range-checked; in particular "0o100" parses as address 0 and "0b111" as
stop-tape (code 3). -/
theorem claim_C9_field_overflow_masked :
    (∀ n : Nat, (Addr.fromU32 ((n <<< ADDR_POS) % U32_MOD)).val = n % 64) ∧
    (∀ n : Nat, (Ctrl.fromU32 n).val = n % 4) ∧
    addrP "0o100".data = .ok (⟨.general, 0⟩, []) ∧
    ctrlP "0b111".data = .ok (.stopTape, []) :=
  ⟨addr_fromU32_val_mod, ctrl_fromU32_val_mod, by decide, by decide⟩

/-! ## Numeral lexer caps (C10) -/

theorem takeGo_length_le (p : Char → Bool) :
    ∀ (m : Nat) (cs : List Char), (takeGo p m cs).1.length ≤ m := by
  intro m
  induction m with
  | zero => intro cs; simp [takeGo]
  | succ m ih =>
    intro cs
    cases cs with
    | nil => simp [takeGo]
    | cons c t =>
      rw [takeGo]
      by_cases hp : p c
      · have := ih t
        simp only [hp, if_true, List.length_cons]
        omega
      · simp [hp]

theorem takeGo_all (p : Char → Bool) :
    ∀ (m : Nat) (cs : List Char), ∀ c ∈ (takeGo p m cs).1, p c = true := by
  intro m
  induction m with
  | zero => intro cs c hc; simp [takeGo] at hc
  | succ m ih =>
    intro cs c hc
    cases cs with
    | nil => simp [takeGo] at hc
    | cons d t =>
      rw [takeGo] at hc
      by_cases hp : p d
      · simp only [hp, if_true, List.mem_cons] at hc
        rcases hc with rfl | hc
        · exact hp
        · exact ih t c hc
      · simp [hp] at hc

theorem foldl_radix_lt (b : Nat) (_hb : 0 < b) :
    ∀ (ds : List Char) (acc : Nat), (∀ c ∈ ds, digitVal c < b) →
      ds.foldl (fun a c => a * b + digitVal c) acc < (acc + 1) * b ^ ds.length := by
  intro ds
  induction ds with
  | nil => intro acc _; simp
  | cons c t ih =>
    intro acc hd
    have hc : digitVal c < b := hd c (List.mem_cons_self c t)
    have ht : ∀ x ∈ t, digitVal x < b := fun x hx => hd x (List.mem_cons_of_mem c hx)
    have h1 := ih (acc * b + digitVal c) ht
    have h2 : (acc * b + digitVal c + 1) * b ^ t.length ≤ (acc + 1) * b ^ (t.length + 1) := by
      have : acc * b + digitVal c + 1 ≤ (acc + 1) * b := by nlinarith
      calc (acc * b + digitVal c + 1) * b ^ t.length ≤ ((acc + 1) * b) * b ^ t.length :=
            Nat.mul_le_mul_right _ this
        _ = (acc + 1) * b ^ (t.length + 1) := by ring
    calc (c :: t).foldl (fun a c => a * b + digitVal c) acc
        = t.foldl (fun a c => a * b + digitVal c) (acc * b + digitVal c) := rfl
      _ < (acc * b + digitVal c + 1) * b ^ t.length := h1
      _ ≤ (acc + 1) * b ^ (t.length + 1) := h2
      _ = (acc + 1) * b ^ (c :: t).length := by rw [List.length_cons]

theorem fromStrRadix_lt (b : Nat) (_hb : 0 < b) (ds : List Char)
    (hd : ∀ c ∈ ds, digitVal c < b) : fromStrRadix b ds < b ^ ds.length := by
  have h := foldl_radix_lt b _hb ds 0 hd
  simpa [fromStrRadix] using h

theorem digitVal_lt_of_bin {c : Char} (h : isBinDigit c = true) : digitVal c < 2 := by
  unfold isBinDigit at h
  rcases Bool.or_eq_true_iff.mp h with h | h
  · rw [eq_of_beq h]; decide
  · rw [eq_of_beq h]; decide

theorem digitVal_lt_of_oct {c : Char} (h : isOctDigit c = true) : digitVal c < 8 := by
  unfold isOctDigit at h
  rcases Bool.and_eq_true_iff.mp h with ⟨h0, h7⟩
  have hc0 : '0' ≤ c := of_decide_eq_true h0
  have hc7 : c ≤ '7' := of_decide_eq_true h7
  have hn0 : '0'.toNat ≤ c.toNat := charToNat_le_iff.mp hc0
  have hn7 : c.toNat ≤ '7'.toNat := charToNat_le_iff.mp hc7
  have e0 : '0'.toNat = 48 := rfl
  have e7 : '7'.toNat = 55 := rfl
  have h9 : c ≤ '9' := charToNat_le_iff.mpr (by
    rw [show '9'.toNat = 57 from rfl]
    omega)
  unfold digitVal
  rw [if_pos (Bool.and_eq_true_iff.mpr ⟨decide_eq_true hc0, decide_eq_true h9⟩)]
  omega

theorem digitVal_lt_of_hex {c : Char} (h : isHexDigit c = true) : digitVal c < 16 := by
  unfold isHexDigit at h
  rcases Bool.or_eq_true_iff.mp h with h | h
  · rcases Bool.or_eq_true_iff.mp h with h | h
    · rcases Bool.and_eq_true_iff.mp h with ⟨h0, h9⟩
      have hn0 : '0'.toNat ≤ c.toNat := charToNat_le_iff.mp (of_decide_eq_true h0)
      have hn9 : c.toNat ≤ '9'.toNat := charToNat_le_iff.mp (of_decide_eq_true h9)
      have e0 : '0'.toNat = 48 := rfl
      have e9 : '9'.toNat = 57 := rfl
      unfold digitVal
      rw [if_pos (Bool.and_eq_true_iff.mpr ⟨h0, h9⟩)]
      omega
    · rcases Bool.and_eq_true_iff.mp h with ⟨ha, hf⟩
      have hna : 'a'.toNat ≤ c.toNat := charToNat_le_iff.mp (of_decide_eq_true ha)
      have hnf : c.toNat ≤ 'f'.toNat := charToNat_le_iff.mp (of_decide_eq_true hf)
      have ea : 'a'.toNat = 97 := rfl
      have ef : 'f'.toNat = 102 := rfl
      unfold digitVal
      rw [if_neg (by
        intro hcon
        rcases Bool.and_eq_true_iff.mp hcon with ⟨_, h9⟩
        have hx := charToNat_le_iff.mp (of_decide_eq_true h9)
        rw [show '9'.toNat = 57 from rfl] at hx
        omega)]
      rw [if_pos (Bool.and_eq_true_iff.mpr ⟨ha, hf⟩)]
      omega
  · rcases Bool.and_eq_true_iff.mp h with ⟨hA, hF⟩
    have hnA : 'A'.toNat ≤ c.toNat := charToNat_le_iff.mp (of_decide_eq_true hA)
    have hnF : c.toNat ≤ 'F'.toNat := charToNat_le_iff.mp (of_decide_eq_true hF)
    have eA : 'A'.toNat = 65 := rfl
    have eF : 'F'.toNat = 70 := rfl
    unfold digitVal
    rw [if_neg (by
      intro hcon
      rcases Bool.and_eq_true_iff.mp hcon with ⟨_, h9⟩
      have hx := charToNat_le_iff.mp (of_decide_eq_true h9)
      rw [show '9'.toNat = 57 from rfl] at hx
      omega)]
    rw [if_neg (by
      intro hcon
      rcases Bool.and_eq_true_iff.mp hcon with ⟨ha, _⟩
      have hx := charToNat_le_iff.mp (of_decide_eq_true ha)
      rw [show 'a'.toNat = 97 from rfl] at hx
      omega)]
    rw [if_pos (Bool.and_eq_true_iff.mpr ⟨hA, hF⟩)]
    omega

theorem binP_value_bound {cs : List Char} {v : Nat} {rest : List Char}
    (h : binP cs = .ok (v, rest)) : v < 2 ^ 31 := by
  unfold binP at h
  split at h
  · exact absurd h (by simp)
  · next cs1 hEq =>
    split at h
    · next hlen =>
      have hv : v = fromStrRadix 2 (takeGo isBinDigit 31 cs1).1 := by
        injection h with h'
        exact (congrArg Prod.fst h').symm
      have hall : ∀ c ∈ (takeGo isBinDigit 31 cs1).1, digitVal c < 2 :=
        fun c hc => digitVal_lt_of_bin (takeGo_all isBinDigit 31 cs1 c hc)
      have hb := fromStrRadix_lt 2 (by norm_num) _ hall
      have hle := takeGo_length_le isBinDigit 31 cs1
      calc v < 2 ^ (takeGo isBinDigit 31 cs1).1.length := hv ▸ hb
        _ ≤ 2 ^ 31 := Nat.pow_le_pow_right (by norm_num) hle
    · exact absurd h (by simp)

theorem octP_value_bound {cs : List Char} {v : Nat} {rest : List Char}
    (h : octP cs = .ok (v, rest)) : v < 2 ^ 30 := by
  unfold octP at h
  split at h
  · exact absurd h (by simp)
  · next cs1 hEq =>
    split at h
    · next hlen =>
      have hv : v = fromStrRadix 8 (takeGo isOctDigit 10 cs1).1 := by
        injection h with h'
        exact (congrArg Prod.fst h').symm
      have hall : ∀ c ∈ (takeGo isOctDigit 10 cs1).1, digitVal c < 8 :=
        fun c hc => digitVal_lt_of_oct (takeGo_all isOctDigit 10 cs1 c hc)
      have hb := fromStrRadix_lt 8 (by norm_num) _ hall
      have hle := takeGo_length_le isOctDigit 10 cs1
      have hpow : (8 : Nat) ^ (takeGo isOctDigit 10 cs1).1.length ≤ 8 ^ 10 :=
        Nat.pow_le_pow_right (by norm_num) hle
      have hv10 : v < 8 ^ 10 := lt_of_lt_of_le (hv ▸ hb) hpow
      calc v < 8 ^ 10 := hv10
        _ = 2 ^ 30 := by norm_num
    · exact absurd h (by simp)

theorem hexP_value_bound {cs : List Char} {v : Nat} {rest : List Char}
    (h : hexP cs = .ok (v, rest)) : v < 2 ^ 28 := by
  unfold hexP at h
  split at h
  · exact absurd h (by simp)
  · next cs1 hEq =>
    split at h
    · next hlen =>
      have hv : v = fromStrRadix 16 (takeGo isHexDigit 7 cs1).1 := by
        injection h with h'
        exact (congrArg Prod.fst h').symm
      have hall : ∀ c ∈ (takeGo isHexDigit 7 cs1).1, digitVal c < 16 :=
        fun c hc => digitVal_lt_of_hex (takeGo_all isHexDigit 7 cs1 c hc)
      have hb := fromStrRadix_lt 16 (by norm_num) _ hall
      have hle := takeGo_length_le isHexDigit 7 cs1
      have hpow : (16 : Nat) ^ (takeGo isHexDigit 7 cs1).1.length ≤ 16 ^ 7 :=
        Nat.pow_le_pow_right (by norm_num) hle
      have hv7 : v < 16 ^ 7 := lt_of_lt_of_le (hv ▸ hb) hpow
      calc v < 16 ^ 7 := hv7
        _ = 2 ^ 28 := by norm_num
    · exact absurd h (by simp)

/-- C10. The numeral lexers cap the consumed digit run at 31 binary, 10 octal
and 7 hexadecimal digits, so every accepted run converts to a value below
`2 ^ 31`, `2 ^ 30` and `2 ^ 28` respectively (always a valid `u32`, so the
radix conversion cannot overflow); a 32-digit binary run is not consumed in
full and makes the surrounding word parse fail. -/
theorem claim_C10_digit_caps :
    (∀ cs v rest, binP cs = .ok (v, rest) → v ≤ 2 ^ 31 - 1) ∧
    (∀ cs v rest, octP cs = .ok (v, rest) → v ≤ 2 ^ 30 - 1) ∧
    (∀ cs v rest, hexP cs = .ok (v, rest) → v ≤ 2 ^ 28 - 1) ∧
    isErr (wordP ("one 0b".data ++ (List.replicate 32 '1' ++ " 0b0".data))) = true := by
  refine ⟨?_, ?_, ?_, ?_⟩
  · intro cs v rest h
    have := binP_value_bound h
    omega
  · intro cs v rest h
    have := octP_value_bound h
    omega
  · intro cs v rest h
    have := hexP_value_bound h
    omega
  · decide

/-- Witness for C10 at concrete accepted numerals. -/
theorem claim_C10_witness :
    (3 : Nat) ≤ 2 ^ 31 - 1 ∧ (7 : Nat) ≤ 2 ^ 30 - 1 ∧ (10 : Nat) ≤ 2 ^ 28 - 1 :=
  ⟨claim_C10_digit_caps.1 "0b11".data 3 [] (by decide),
   claim_C10_digit_caps.2.1 "0o7".data 7 [] (by decide),
   claim_C10_digit_caps.2.2.1 "0ha".data 10 [] (by decide)⟩

/-! ## Blank-line strictness (C2) -/

theorem hws_imp_ws (c : Char) (h : isHWS c = true) : isWS c = true := by
  unfold isHWS at h
  unfold isWS
  rcases Bool.or_eq_true_iff.mp h with h | h <;> simp [h]

theorem isHWS_eq_false {c : Char} (h : isWS c = false) : isHWS c = false := by
  cases hh : isHWS c
  · rfl
  · have hw := hws_imp_ws c hh
    rw [h] at hw
    exact absurd hw (by simp)

theorem dropWhile_head_false {p : Char → Bool} {c : Char} {t : List Char}
    (h : p c = false) : (c :: t).dropWhile p = c :: t :=
  List.dropWhile_cons_of_neg (by rw [h]; simp)

theorem dropWhile_replicate_append {p : Char → Bool} {x : Char} (hx : p x = true)
    (a : Nat) (l : List Char) :
    (List.replicate a x ++ l).dropWhile p = l.dropWhile p := by
  induction a with
  | zero => rfl
  | succ a ih =>
    rw [List.replicate_succ, List.cons_append,
      List.dropWhile_cons_of_pos (by rw [hx])]
    exact ih

theorem all_ws_replicate (m : Nat) : (List.replicate m '\n').all isWS = true := by
  induction m with
  | zero => rfl
  | succ m ih => rw [List.replicate_succ, List.all_cons, ih]; rfl

theorem dropWhile_hws_replicate (m : Nat) :
    (List.replicate m '\n').dropWhile isHWS = List.replicate m '\n' := by
  cases m with
  | zero => rfl
  | succ m => rw [List.replicate_succ]; exact dropWhile_head_false rfl

/-- Any input starting with a bare newline fails the item parser: it is not a
comment (no `;`) and no mnemonic matches. -/
theorem itemP_newline (rest : List Char) :
    itemP ('\n' :: rest) = .error (.expectedInst .nopf) := rfl

theorem nodesLoop_done (fuel : Nat) (cs : List Char)
    (h : (cs.dropWhile isHWS).all isWS = true) :
    nodesLoop (fuel + 1) cs = .ok [] := by
  rw [nodesLoop, if_pos h]

theorem nodesLoop_cons_item (fuel : Nat) (c : Char) (t : List Char) (n : Node)
    (rest : List Char) (hh : isHWS c = false) (hall : (c :: t).all isWS = false)
    (hi : itemP (c :: t) = .ok (n, rest)) :
    nodesLoop (fuel + 1) (c :: t) =
      match nodesLoop fuel rest with
      | .ok ns => .ok (n :: ns)
      | .error e => .error e := by
  rw [nodesLoop, dropWhile_head_false hh, if_neg (by rw [hall]; simp), hi]

theorem nodesLoop_cons_err (fuel : Nat) (c : Char) (t : List Char) (e : SynError)
    (hh : isHWS c = false) (hall : (c :: t).all isWS = false)
    (hi : itemP (c :: t) = .error e) :
    nodesLoop (fuel + 1) (c :: t) = .error e := by
  rw [nodesLoop, dropWhile_head_false hh, if_neg (by rw [hall]; simp), hi]

/-- C2. Two well-formed word lines separated by one or more blank lines fail
to parse (blank lines between content lines are a syntax error, not skipped),
while any number of leading and trailing blank lines around the program are
trimmed and the same two lines parse to their two nodes.  A "well-formed word
line" is abstracted by its parse behaviour: `itemP` accepts the line before a
terminator and before end of input. -/
theorem claim_C2_blank_line_strictness
    (c1 c2 : Char) (t1 t2 : List Char) (n1 n2 : Node) (k a b : Nat)
    (hws1 : isWS c1 = false) (hws2 : isWS c2 = false)
    (h1 : ∀ rest, itemP ((c1 :: t1) ++ '\n' :: rest) = .ok (n1, rest))
    (h2 : ∀ rest, itemP ((c2 :: t2) ++ '\n' :: rest) = .ok (n2, rest))
    (h2e : itemP (c2 :: t2) = .ok (n2, []))
    (hk : 1 ≤ k) :
    isErr (nodesP ((c1 :: t1) ++ '\n' :: (List.replicate k '\n' ++ (c2 :: t2)))) = true ∧
    nodesP (List.replicate a '\n' ++
        ((c1 :: t1) ++ '\n' :: ((c2 :: t2) ++ List.replicate b '\n'))) =
      .ok [n1, n2] := by
  have hh1 : isHWS c1 = false := isHWS_eq_false hws1
  constructor
  · -- one or more blank lines between the two word lines: parse failure
    obtain ⟨k1, rfl⟩ : ∃ k1, k = k1 + 1 := ⟨k - 1, by omega⟩
    unfold nodesP
    rw [List.cons_append, dropWhile_head_false hws1]
    rw [show (c1 :: (t1 ++ '\n' :: (List.replicate (k1 + 1) '\n' ++ (c2 :: t2)))).length + 1
        = ((t1 ++ '\n' :: (List.replicate (k1 + 1) '\n' ++ (c2 :: t2))).length + 1) + 1
        from rfl]
    rw [nodesLoop_cons_item _ c1 (t1 ++ '\n' :: (List.replicate (k1 + 1) '\n' ++ (c2 :: t2)))
      n1 (List.replicate (k1 + 1) '\n' ++ (c2 :: t2)) hh1 (by simp [List.all_cons, hws1])
      (h1 (List.replicate (k1 + 1) '\n' ++ (c2 :: t2)))]
    rw [List.replicate_succ, List.cons_append]
    rw [nodesLoop_cons_err _ '\n' (List.replicate k1 '\n' ++ (c2 :: t2)) _ rfl
      (by simp [List.all_cons, List.all_append, hws2]) (itemP_newline _)]
    rfl
  · -- leading and trailing blank lines are trimmed
    unfold nodesP
    rw [dropWhile_replicate_append (show isWS '\n' = true from rfl),
      List.cons_append, dropWhile_head_false hws1]
    cases b with
    | zero =>
      rw [show (c2 :: t2) ++ List.replicate 0 '\n' = c2 :: t2 from by simp]
      rw [show (c1 :: (t1 ++ '\n' :: (c2 :: t2))).length + 1
          = ((t1 ++ '\n' :: (c2 :: t2)).length + 1) + 1 from rfl]
      rw [nodesLoop_cons_item _ c1 (t1 ++ '\n' :: (c2 :: t2)) n1 (c2 :: t2) hh1
        (by simp [List.all_cons, hws1]) (h1 (c2 :: t2))]
      rw [nodesLoop_cons_item _ c2 t2 n2 [] (isHWS_eq_false hws2)
        (by simp [List.all_cons, hws2]) h2e]
      rw [show (t1 ++ '\n' :: (c2 :: t2)).length = (t1.length + (c2 :: t2).length) + 1
          from by rw [List.length_append, List.length_cons]; omega]
      rw [nodesLoop_done _ [] rfl]
    | succ b1 =>
      rw [show (c2 :: t2) ++ List.replicate (b1 + 1) '\n'
          = c2 :: (t2 ++ '\n' :: List.replicate b1 '\n') from by
        rw [List.replicate_succ, List.cons_append]]
      rw [show (c1 :: (t1 ++ '\n' :: (c2 :: (t2 ++ '\n' :: List.replicate b1 '\n')))).length + 1
          = ((t1 ++ '\n' :: (c2 :: (t2 ++ '\n' :: List.replicate b1 '\n'))).length + 1) + 1
          from rfl]
      rw [nodesLoop_cons_item _ c1 (t1 ++ '\n' :: (c2 :: (t2 ++ '\n' :: List.replicate b1 '\n')))
        n1 (c2 :: (t2 ++ '\n' :: List.replicate b1 '\n')) hh1
        (by simp [List.all_cons, hws1])
        (h1 (c2 :: (t2 ++ '\n' :: List.replicate b1 '\n')))]
      rw [nodesLoop_cons_item _ c2 (t2 ++ '\n' :: List.replicate b1 '\n') n2
        (List.replicate b1 '\n') (isHWS_eq_false hws2)
        (by simp [List.all_cons, hws2]) (h2 (List.replicate b1 '\n'))]
      rw [show (t1 ++ '\n' :: (c2 :: (t2 ++ '\n' :: List.replicate b1 '\n'))).length
          = (t1.length + (c2 :: (t2 ++ '\n' :: List.replicate b1 '\n')).length) + 1
          from by rw [List.length_append, List.length_cons]; omega]
      rw [nodesLoop_done _ (List.replicate b1 '\n') (by
        rw [dropWhile_hws_replicate]
        exact all_ws_replicate _)]

/-- Witness for C2: `one 0b0 0b0` and `ld 0b1 0b0` separated by one blank
line fail to parse, while with a leading and a trailing blank line instead
they parse to the two word nodes. -/
theorem claim_C2_witness :
    isErr (nodesP (('o' :: "ne 0b0 0b0".data) ++ '\n' ::
        (List.replicate 1 '\n' ++ ('l' :: "d 0b1 0b0".data)))) = true ∧
    nodesP (List.replicate 1 '\n' ++
        (('o' :: "ne 0b0 0b0".data) ++ '\n' ::
          (('l' :: "d 0b1 0b0".data) ++ List.replicate 1 '\n'))) =
      .ok [.word .one ⟨.general, 0⟩ .null, .word .ld ⟨.general, 1⟩ .null] :=
  claim_C2_blank_line_strictness 'o' 'l' "ne 0b0 0b0".data "d 0b1 0b0".data
    (.word .one ⟨.general, 0⟩ .null) (.word .ld ⟨.general, 1⟩ .null) 1 1 1
    rfl rfl
    (fun rest => by
      have hA : Addr.fromU32 ((0 <<< ADDR_POS) % U32_MOD) = ⟨.general, 0⟩ := rfl
      have hC : Ctrl.fromU32 0 = .null := rfl
      rw [← hA, ← hC]
      rfl)
    (fun rest => by
      have hA : Addr.fromU32 ((1 <<< ADDR_POS) % U32_MOD) = ⟨.general, 1⟩ := rfl
      have hC : Ctrl.fromU32 0 = .null := rfl
      rw [← hA, ← hC]
      rfl)
    (by
      have hA : Addr.fromU32 ((1 <<< ADDR_POS) % U32_MOD) = ⟨.general, 1⟩ := rfl
      have hC : Ctrl.fromU32 0 = .null := rfl
      rw [← hA, ← hC]
      rfl)
    (by norm_num)

end UE14500
